import Mathlib

/-!
Verification development for the SoilNet machine-learning pipeline
(`backend/ml/{utils,models,server,main}.py`).

The Python code manipulates pandas DataFrames.  A DataFrame is embedded
shallowly as an ordered list of column names together with row-major cells;
a cell is a `Val`: a rational number, a datetime (`ts`, seconds since the
Unix epoch), an ISO-formatted timestamp string (`tstr`, carrying the instant
it denotes), or a missing value (`na`, pandas NaN/NaT).  Cells that
`pd.to_datetime` cannot interpret as instants (plain numbers here) are
modelled as failing conversion.  Fallible pandas operations (KeyError on a
missing column, a conversion failure) are modelled with `Except Unit`.
-/

inductive Val where
  | num (q : ℚ)
  | ts (t : ℕ)
  | tstr (t : ℕ)
  | na
deriving DecidableEq, Repr

structure DF where
  cols : List String
  rows : List (List Val)
deriving DecidableEq, Repr

/-- Index of a column name in a column list (position of first occurrence). -/
def colIdx (c : String) : List String → Option ℕ
  | [] => none
  | c' :: rest => if c' = c then some 0 else (colIdx c rest).map (· + 1)

/-- Read one column of a DataFrame; `KeyError` when the column is absent. -/
def getColVals (df : DF) (c : String) : Except Unit (List Val) :=
  match colIdx c df.cols with
  | some i => .ok (df.rows.map (fun r => r.getD i Val.na))
  | none => .error ()

/-- `df[c] = vs`: replace the column in place when present, else append it. -/
def setCol (df : DF) (c : String) (vs : List Val) : DF :=
  match colIdx c df.cols with
  | some i => ⟨df.cols, List.zipWith (fun r v => r.set i v) df.rows vs⟩
  | none => ⟨df.cols ++ [c], List.zipWith (fun r v => r ++ [v]) df.rows vs⟩

/-- `df[names]` column projection; `KeyError` when a requested name is absent. -/
def select (df : DF) (names : List String) : Except Unit DF :=
  if names.all (fun c => (colIdx c df.cols).isSome) then
    .ok ⟨names, df.rows.map (fun r => names.map (fun c => r.getD ((colIdx c df.cols).getD 0) Val.na))⟩
  else .error ()

/-- Elementwise fallible map (used for the columnwise `pd.to_datetime`). -/
def mapExcept {α β : Type} (f : α → Except Unit β) : List α → Except Unit (List β)
  | [] => .ok []
  | v :: rest =>
    match f v, mapExcept f rest with
    | .ok b, .ok bs => .ok (b :: bs)
    | .error e, _ => .error e
    | .ok _, .error e => .error e

/-- One cell under `pd.to_datetime`: datetimes stay, ISO strings parse to the
instant they denote, NaN stays NaT; a plain number is modelled as failing. -/
def toDatetimeVal : Val → Except Unit Val
  | .ts t => .ok (.ts t)
  | .tstr t => .ok (.ts t)
  | .na => .ok .na
  | .num _ => .error ()

/-- `.dt.hour` of a converted cell (epoch seconds). -/
def hourOf : Val → Val
  | .ts t => .num (((t / 3600) % 24 : ℕ))
  | _ => .na

/-- `.dt.dayofweek` of a converted cell; Monday = 0, and the epoch
1970-01-01 was a Thursday (= 3). -/
def dayOfWeekOf : Val → Val
  | .ts t => .num (((t / 86400 + 3) % 7 : ℕ))
  | _ => .na

/-- Temporal feature engineering of `preprocess_data`: when a `createdAt`
column is present, convert it with `pd.to_datetime` and derive `hour` and
`day_of_week` from the converted column; otherwise leave the table alone. -/
def addTemporal (df : DF) : Except Unit DF :=
  if "createdAt" ∈ df.cols then
    match getColVals df "createdAt" with
    | .error e => .error e
    | .ok vs =>
      match mapExcept toDatetimeVal vs with
      | .error e => .error e
      | .ok conv =>
        let d1 := setCol df "createdAt" conv
        let d2 := setCol d1 "hour" (conv.map hourOf)
        .ok (setCol d2 "day_of_week" (conv.map dayOfWeekOf))
  else .ok df

/-- The fixed feature list of `preprocess_data`. -/
def features : List String :=
  ["humidity_percent", "raw_value", "rssi", "voltage", "sampling_interval", "hour", "day_of_week"]

/-- Broadcast scalar `0` over the current rows (`df[col] = 0`). -/
def zerosFor (df : DF) : List Val := df.rows.map (fun _ => Val.num 0)

/-- One iteration of the schema-completeness loop: insert the feature column
with value 0 when it is missing. -/
def efStep (d : DF) (c : String) : DF := if c ∈ d.cols then d else setCol d c (zerosFor d)

/-- The schema-completeness loop: insert every missing feature column with 0. -/
def ensureFeatures (df : DF) : DF :=
  features.foldl efStep df

/-- The state of the caller's DataFrame object after `preprocess_data`
returns: the temporal derivation and the schema-completeness loop mutate the
argument in place, while `df = df.sort_values(...)` rebinds the local name to
a fresh copy, so the later sorting and target column never reach the caller's
object. -/
def callerFrame (df : DF) : Except Unit DF :=
  match addTemporal df with
  | .error e => .error e
  | .ok d => .ok (ensureFeatures d)

/-- Comparison of two cells as pandas orders them inside one well-typed
column; distinct runtime types are ranked so the order is total. -/
def Val.rank : Val → ℕ
  | num _ => 0
  | ts _ => 1
  | tstr _ => 2
  | na => 3

def Val.le (a b : Val) : Bool :=
  match a, b with
  | num p, num q => p ≤ q
  | ts s, ts t => s ≤ t
  | tstr s, tstr t => s ≤ t
  | na, na => true
  | a, b => a.rank < b.rank

def Val.ltStrict (a b : Val) : Bool := a.le b && !(b.le a)

/-- Lexicographic key comparison for `sort_values(by=['node_id','createdAt'])`. -/
def pairLeB (a b : Val × Val) : Bool :=
  if Val.ltStrict a.1 b.1 then true
  else if Val.ltStrict b.1 a.1 then false
  else Val.le a.2 b.2

/-- Sort key of one row: its `node_id` cell then its `createdAt` cell. -/
def keyOf (iN iC : ℕ) (r : List Val) : Val × Val := (r.getD iN Val.na, r.getD iC Val.na)

def rowLeP (iN iC : ℕ) (a b : List Val) : Prop := pairLeB (keyOf iN iC a) (keyOf iN iC b) = true

instance (iN iC : ℕ) : DecidableRel (rowLeP iN iC) := fun a b => by
  unfold rowLeP; infer_instance

/-- `df.sort_values(by=['node_id', 'createdAt'])`: KeyError when either
column is absent; otherwise the rows ordered by the lexicographic key (the
embedding fixes insertion sort as the concrete ordering algorithm). -/
def sortValues (df : DF) : Except Unit DF :=
  match colIdx "node_id" df.cols, colIdx "createdAt" df.cols with
  | some iN, some iC => .ok ⟨df.cols, List.insertionSort (rowLeP iN iC) df.rows⟩
  | _, _ => .error ()

/-- The shifted value for the row at the head of the remaining row list:
`groupby('node_id')['humidity_percent'].shift(-1)` gives each row the
humidity of the next row (in current order) with the same `node_id`; rows
whose group key is NaN are excluded from grouping and get NaN. -/
def nextVal (iN iH : ℕ) (r : List Val) (rest : List (List Val)) : Val :=
  if r.getD iN Val.na = Val.na then Val.na
  else
    match rest.find? (fun r2 => r2.getD iN Val.na == r.getD iN Val.na) with
    | some r2 => r2.getD iH Val.na
    | none => Val.na

/-- The whole shifted column, row by row. -/
def shiftNext (iN iH : ℕ) : List (List Val) → List Val
  | [] => []
  | r :: rest => nextVal iN iH r rest :: shiftNext iN iH rest

/-- `df.groupby('node_id')['humidity_percent'].shift(-1)` over the rows of
`df`; KeyError when either column is absent. -/
def groupShift (df : DF) : Except Unit (List Val) :=
  match colIdx "node_id" df.cols, colIdx "humidity_percent" df.cols with
  | some iN, some iH => .ok (shiftNext iN iH df.rows)
  | _, _ => .error ()

/-- `df.dropna(subset=[c])`: keep the rows whose `c` cell is not NaN. -/
def dropnaSubset (df : DF) (c : String) : Except Unit DF :=
  match colIdx c df.cols with
  | some i => .ok ⟨df.cols, df.rows.filter (fun r => r.getD i Val.na != Val.na)⟩
  | none => .error ()

/-- The training-mode table construction of `preprocess_data` after the
in-place phase: sort by node and date, build `humidity_future` by the grouped
shift, and drop the rows without a target. -/
def trainTable (df1 : DF) : Except Unit DF :=
  match sortValues df1 with
  | .error e => .error e
  | .ok s =>
    match groupShift s with
    | .error e => .error e
    | .ok fut => dropnaSubset (setCol s "humidity_future" fut) "humidity_future"

/-- Training branch of `preprocess_data`: `(X, y)` with `X = df[features]`
and `y = df['humidity_future']`. -/
def preprocessTrain (df1 : DF) : Except Unit (DF × List Val) :=
  match trainTable df1 with
  | .error e => .error e
  | .ok t =>
    match select t features with
    | .error e => .error e
    | .ok X =>
      match getColVals t "humidity_future" with
      | .error e => .error e
      | .ok y => .ok (X, y)

/-- Inference branch of `preprocess_data`: only `df[features]`. -/
def preprocessInfer (df1 : DF) : Except Unit DF := select df1 features

inductive POut where
  | training (X : DF) (y : List Val)
  | inference (X : DF)
deriving DecidableEq, Repr

/-- `preprocess_data(df, is_training)` from `backend/ml/utils.py`. -/
def preprocess_data (df : DF) (isTraining : Bool) : Except Unit POut :=
  match callerFrame df with
  | .error e => .error e
  | .ok df1 =>
    if isTraining then
      match preprocessTrain df1 with
      | .ok (X, y) => .ok (.training X y)
      | .error e => .error e
    else
      match preprocessInfer df1 with
      | .ok X => .ok (.inference X)
      | .error e => .error e

/-! ## `SoilHumidityRegressor.evaluate` (`backend/ml/models.py`)

The random-forest capability is external; cross-validation over a dataset is
abstracted by a function `runCV` from the fold count actually used to the
aggregated metrics.  What the embedding keeps faithfully is the control flow
around it: the dynamic clamp of `k_folds` to `len(X)`, the degenerate early
return, and the `KFold` constraint that fewer than two splits raise a
`ValueError` (as does asking `cross_val_score` for more splits than rows). -/

structure Metrics where
  rmse_mean : ℚ
  rmse_std : ℚ
deriving DecidableEq, Repr

/-- `KFold(n_splits=k)` + `cross_val_score` + aggregation: raises for fewer
than two splits or more splits than samples, else runs the k-fold loop. -/
def kfoldCV (runCV : ℕ → Metrics) (nX k : ℕ) : Except Unit Metrics :=
  if k < 2 then .error ()
  else if nX < k then .error ()
  else .ok (runCV k)

/-- `SoilHumidityRegressor.evaluate` on a dataset of `nX` rows with requested
fold count `k_folds` (default 5 in the source). -/
def evaluate (runCV : ℕ → Metrics) (nX k_folds : ℕ) : Except Unit Metrics :=
  if nX < k_folds then
    if nX < 2 then .ok ⟨0, 0⟩
    else kfoldCV runCV nX nX
  else kfoldCV runCV nX k_folds

/-! ## The predictor (`backend/ml/server.py`)

`predict()` reads seven positional command-line tokens, parses them with
`float()` / `int()`, builds a one-row DataFrame, preprocesses it in inference
mode, loads the persisted model and prints exactly one JSON object.  A token
is embedded by what the Python numeric parsers make of it: `intTok` is a
token both `int()` and `float()` accept, `floatTok` one only `float()`
accepts, `badTok` one neither accepts.  The filesystem and the loaded
model are an explicit environment. -/

inductive Tok where
  | intTok (n : ℤ)
  | floatTok (q : ℚ)
  | badTok
deriving DecidableEq, Repr

def parseFloatTok : Tok → Option ℚ
  | .intTok n => some (n : ℚ)
  | .floatTok q => some q
  | .badTok => none

def parseIntTok : Tok → Option ℤ
  | .intTok n => some n
  | _ => none

inductive JsonOut where
  | insufficientArgs
  | failed
  | success (v : ℚ)
deriving DecidableEq, Repr

def JsonOut.isSuccess : JsonOut → Bool
  | .success _ => true
  | _ => false

/-- The one-row DataFrame built from the parsed arguments (`input_dict` key
order is preserved by `pd.DataFrame([input_dict])`). -/
def inputDF (h rv rs vv : ℚ) (si hr dw : ℤ) : DF :=
  ⟨["humidity_percent", "raw_value", "rssi", "voltage", "sampling_interval", "hour", "day_of_week"],
   [[.num h, .num rv, .num rs, .num vv, .num si, .num hr, .num dw]]⟩

/-- Parse the first seven argument tokens as the source parses them. -/
def parseArgsDF : List Tok → Option DF
  | a1 :: a2 :: a3 :: a4 :: a5 :: a6 :: a7 :: _ => do
    let h ← parseFloatTok a1
    let rv ← parseFloatTok a2
    let rs ← parseFloatTok a3
    let vv ← parseFloatTok a4
    let si ← parseIntTok a5
    let hr ← parseIntTok a6
    let dw ← parseIntTok a7
    some (inputDF h rv rs vv si hr dw)
  | _ => none

structure ServerEnv where
  modelExists : Bool
  modelPredict : DF → Except Unit ℚ

structure PredictRun where
  stdout : List JsonOut
  exitCode : ℕ
  loadAttempted : Bool
deriving Repr

/-- `predict()` from `backend/ml/server.py`, on the argument vector after the
script name (`sys.argv` has the script at index 0, hence the `+ 1`). -/
def predictRun (env : ServerEnv) (args : List Tok) : PredictRun :=
  if args.length + 1 < 8 then ⟨[.insufficientArgs], 1, false⟩
  else
    match parseArgsDF args with
    | none => ⟨[.failed], 1, false⟩
    | some df =>
      match preprocessInfer df with
      | .error _ => ⟨[.failed], 1, false⟩
      | .ok X =>
        if env.modelExists then
          match env.modelPredict X with
          | .ok v => ⟨[.success v], 0, true⟩
          | .error _ => ⟨[.failed], 1, true⟩
        else ⟨[.failed], 1, true⟩

/-! ## Artifact persistence (`backend/ml/main.py`)

After evaluation and the final fit, `main` runs `save_model(...)` then
`save_metrics(...)` as two sequential unguarded calls; an exception from
either write propagates out of `main`.  The writes are external effects,
abstracted by an environment saying whether each would succeed. -/

inductive PersistEvent where
  | modelSave
  | metricsSave
deriving DecidableEq, Repr

structure FsEnv where
  modelSaveOk : Bool
  metricsSaveOk : Bool

structure PersistOutcome where
  attempted : List PersistEvent
  modelPersisted : Bool
  metricsPersisted : Bool
  raised : Bool
deriving DecidableEq, Repr

/-- The persistence step of `main`: `save_model` first; `save_metrics` is
reached only if `save_model` did not raise. -/
def persistArtifacts (env : FsEnv) : PersistOutcome :=
  if env.modelSaveOk then
    if env.metricsSaveOk then ⟨[.modelSave, .metricsSave], true, true, false⟩
    else ⟨[.modelSave, .metricsSave], true, false, true⟩
  else ⟨[.modelSave], false, false, true⟩


/-- The key order as a `Prop` relation, for the sorted-unique argument. -/
def keyLeP (a b : Val × Val) : Prop := pairLeB a b = true

/-- Pair each row of one node's chronological subsequence with the humidity
of its successor; the last row gets NaN. -/
def chainAnnot (iH : ℕ) : List (List Val) → List (List Val)
  | [] => []
  | [r] => [r ++ [Val.na]]
  | r :: r2 :: rest => (r ++ [r2.getD iH Val.na]) :: chainAnnot iH (r2 :: rest)

/-- Decidable equality of `Except` results, for concrete evaluation. -/
instance {ε α : Type} [DecidableEq ε] [DecidableEq α] : DecidableEq (Except ε α)
  | .error e1, .error e2 =>
    if h : e1 = e2 then isTrue (by rw [h]) else isFalse (fun hc => h (by injection hc))
  | .ok a, .ok b =>
    if h : a = b then isTrue (by rw [h]) else isFalse (fun hc => h (by injection hc))
  | .error _, .ok _ => isFalse (fun hc => Except.noConfusion hc)
  | .ok _, .error _ => isFalse (fun hc => Except.noConfusion hc)

/-! ## Concrete tables and environments used to instantiate the claims -/

/-- A two-reading one-node table used to instantiate the schema-parity claim. -/
def dfW : DF :=
  ⟨["node_id", "createdAt", "humidity_percent", "raw_value", "rssi", "voltage", "sampling_interval"],
   [[.num 1, .ts 3600, .num 50, .num 100, .num (-60), .num 4, .num 600],
    [.num 1, .ts 7200, .num 55, .num 101, .num (-61), .num 4, .num 600]]⟩

def dfW_trainX : DF :=
  ⟨["humidity_percent", "raw_value", "rssi", "voltage", "sampling_interval", "hour", "day_of_week"],
   [[.num 50, .num 100, .num (-60), .num 4, .num 600, .num 1, .num 3]]⟩

def dfW_inferX : DF :=
  ⟨["humidity_percent", "raw_value", "rssi", "voltage", "sampling_interval", "hour", "day_of_week"],
   [[.num 50, .num 100, .num (-60), .num 4, .num 600, .num 1, .num 3],
    [.num 55, .num 101, .num (-61), .num 4, .num 600, .num 2, .num 3]]⟩




/-- A table already carrying exactly the seven feature columns. -/
def dfFixed : DF :=
  ⟨["humidity_percent", "raw_value", "rssi", "voltage", "sampling_interval", "hour", "day_of_week"],
   [[.num 1, .num 2, .num 3, .num 4, .num 5, .num 6, .num 0]]⟩

/-- A raw table with node 1 read three times (listed out of order) and
node 2 read once. -/
def dfW3 : DF :=
  ⟨["node_id", "createdAt", "humidity_percent", "raw_value", "rssi", "voltage", "sampling_interval"],
   [[.num 1, .ts 7200, .num 55, .num 0, .num 0, .num 0, .num 0],
    [.num 2, .ts 100, .num 99, .num 0, .num 0, .num 0, .num 0],
    [.num 1, .ts 3600, .num 50, .num 0, .num 0, .num 0, .num 0],
    [.num 1, .ts 10800, .num 60, .num 0, .num 0, .num 0, .num 0]]⟩

/-- `dfW3` after the in-place phase. -/
def df1W3 : DF :=
  ⟨["node_id", "createdAt", "humidity_percent", "raw_value", "rssi", "voltage", "sampling_interval",
    "hour", "day_of_week"],
   [[.num 1, .ts 7200, .num 55, .num 0, .num 0, .num 0, .num 0, .num 2, .num 3],
    [.num 2, .ts 100, .num 99, .num 0, .num 0, .num 0, .num 0, .num 0, .num 3],
    [.num 1, .ts 3600, .num 50, .num 0, .num 0, .num 0, .num 0, .num 1, .num 3],
    [.num 1, .ts 10800, .num 60, .num 0, .num 0, .num 0, .num 0, .num 3, .num 3]]⟩

def w3r1 : List Val := [.num 1, .ts 3600, .num 50, .num 0, .num 0, .num 0, .num 0, .num 1, .num 3]

def w3r2 : List Val := [.num 1, .ts 7200, .num 55, .num 0, .num 0, .num 0, .num 0, .num 2, .num 3]

def w3r3 : List Val := [.num 1, .ts 10800, .num 60, .num 0, .num 0, .num 0, .num 0, .num 3, .num 3]

def w3r : List Val := [.num 2, .ts 100, .num 99, .num 0, .num 0, .num 0, .num 0, .num 0, .num 3]


def envW : ServerEnv := ⟨true, fun _ => .ok 0⟩

def argsW6 : List Tok := [.floatTok 50, .floatTok 100, .floatTok (-60), .floatTok 4, .intTok 600, .intTok 1]

/-- A raw table with a node column but no timestamp column. -/
def dfMissingTs : DF := ⟨["node_id", "humidity_percent"], [[.num 1, .num 50]]⟩

def dfW8 : DF := ⟨["node_id"], [[.num 7]]⟩

/-- `dfW` after the in-place phase. -/
def dfW_frame : DF :=
  ⟨["node_id", "createdAt", "humidity_percent", "raw_value", "rssi", "voltage",
    "sampling_interval", "hour", "day_of_week"],
   [[.num 1, .ts 3600, .num 50, .num 100, .num (-60), .num 4, .num 600, .num 1, .num 3],
    [.num 1, .ts 7200, .num 55, .num 101, .num (-61), .num 4, .num 600, .num 2, .num 3]]⟩


/-! ## Basic lemmas about the DataFrame primitives -/

theorem colIdx_lt_length {c : String} : ∀ {l : List String} {i : ℕ}, colIdx c l = some i → i < l.length := by
  intro l
  induction l with
  | nil => intro i h; simp [colIdx] at h
  | cons c' rest ih =>
    intro i h
    by_cases hc : c' = c
    · simp [colIdx, hc] at h
      simp
      omega
    · simp [colIdx, hc] at h
      obtain ⟨j, hj, rfl⟩ := h
      have := ih hj
      simp
      omega

theorem colIdx_getD {c : String} {d : String} : ∀ {l : List String} {i : ℕ}, colIdx c l = some i → l.getD i d = c := by
  intro l
  induction l with
  | nil => intro i h; simp [colIdx] at h
  | cons c' rest ih =>
    intro i h
    by_cases hc : c' = c
    · simp [colIdx, hc] at h
      subst h
      simpa using hc
    · simp [colIdx, hc] at h
      obtain ⟨j, hj, rfl⟩ := h
      simpa using ih hj

theorem colIdx_eq_none_iff {c : String} : ∀ {l : List String}, colIdx c l = none ↔ c ∉ l := by
  intro l
  induction l with
  | nil => simp [colIdx]
  | cons c' rest ih =>
    by_cases hc : c' = c
    · simp [colIdx, hc]
    · simp [colIdx, hc, ih, Ne.symm hc]

theorem colIdx_isSome_of_mem {c : String} {l : List String} (h : c ∈ l) : (colIdx c l).isSome := by
  cases hc : colIdx c l with
  | none => exact absurd h (colIdx_eq_none_iff.mp hc)
  | some i => simp

theorem colIdx_append_of_mem {c : String} : ∀ {l : List String} (l' : List String), c ∈ l → colIdx c (l ++ l') = colIdx c l := by
  intro l
  induction l with
  | nil => intro l' h; simp at h
  | cons c' rest ih =>
    intro l' h
    by_cases hc : c' = c
    · simp [colIdx, hc]
    · have : c ∈ rest := by
        rcases List.mem_cons.mp h with h1 | h1
        · exact absurd h1.symm hc
        · exact h1
      simp [colIdx, hc, ih l' this]

theorem colIdx_append_new {c : String} : ∀ {l : List String}, c ∉ l → colIdx c (l ++ [c]) = some l.length := by
  intro l
  induction l with
  | nil => intro _; simp [colIdx]
  | cons c' rest ih =>
    intro h
    have hc : c' ≠ c := fun he => h (by simp [he])
    have hrest : c ∉ rest := fun he => h (by simp [he])
    simp [colIdx, hc, ih hrest]

theorem getD_map_lt {α β : Type} (g : α → β) (d : β) (d' : α) : ∀ (l : List α) (j : ℕ), j < l.length → (l.map g).getD j d = g (l.getD j d') := by
  intro l
  induction l with
  | nil => intro j h; simp at h
  | cons x rest ih =>
    intro j h
    cases j with
    | zero => simp
    | succ j' =>
      simp only [List.map_cons, List.getD_cons_succ]
      exact ih j' (by simpa using h)

theorem mapExcept_ok_length {α β : Type} (f : α → Except Unit β) : ∀ {vs : List α} {l : List β}, mapExcept f vs = .ok l → l.length = vs.length := by
  intro vs
  induction vs with
  | nil => intro l h; simp [mapExcept] at h; simp [← h]
  | cons v rest ih =>
    intro l h
    cases hf : f v with
    | error e => simp [mapExcept, hf] at h
    | ok b =>
      cases hr : mapExcept f rest with
      | error e => simp [mapExcept, hf, hr] at h
      | ok bs =>
        simp [mapExcept, hf, hr] at h
        simp [← h, ih hr]

theorem find?_eq_head_filter {α : Type} (p : α → Bool) : ∀ (l : List α), l.find? p = (l.filter p).head? := by
  intro l
  induction l with
  | nil => simp
  | cons x rest ih =>
    cases hx : p x
    · rw [List.find?_cons_of_neg _ (by simp [hx]), List.filter_cons_of_neg (by simp [hx])]
      exact ih
    · rw [List.find?_cons_of_pos _ hx, List.filter_cons_of_pos hx]
      simp

/-! ## Order properties of the sort key -/

theorem val_le_total : ∀ a b : Val, Val.le a b = true ∨ Val.le b a = true := by
  intro a b
  cases a <;> cases b <;> simp [Val.le, Val.rank] <;> first
    | omega
    | exact le_total _ _

theorem val_le_trans : ∀ a b c : Val, Val.le a b = true → Val.le b c = true → Val.le a c = true := by
  intro a b c hab hbc
  cases a <;> cases b <;> cases c <;> simp_all [Val.le, Val.rank] <;> first
    | omega
    | exact le_trans hab hbc

theorem val_le_antisymm : ∀ a b : Val, Val.le a b = true → Val.le b a = true → a = b := by
  intro a b hab hba
  cases a <;> cases b <;> simp_all [Val.le, Val.rank] <;> first
    | omega
    | exact le_antisymm hab hba

theorem ltStrict_iff {a b : Val} : Val.ltStrict a b = true ↔ (Val.le a b = true ∧ ¬ (Val.le b a = true)) := by
  simp [Val.ltStrict]

theorem ltStrict_irrefl (a : Val) : Val.ltStrict a a = false := by
  cases h : Val.ltStrict a a
  · rfl
  · rcases ltStrict_iff.mp h with ⟨h1, h2⟩
    exact absurd h1 h2

theorem not_ltStrict_both {a b : Val} (hab : Val.ltStrict a b = true) (hba : Val.ltStrict b a = true) : False := by
  rcases ltStrict_iff.mp hab with ⟨h1, h2⟩
  rcases ltStrict_iff.mp hba with ⟨h3, _⟩
  exact h2 h3

theorem eq_of_not_ltStrict {a b : Val} (hab : Val.ltStrict a b = false) (hba : Val.ltStrict b a = false) : a = b := by
  have h1 : ¬ (Val.le a b = true ∧ ¬ (Val.le b a = true)) := by
    intro hc
    rw [ltStrict_iff.mpr hc] at hab
    simp at hab
  have h2 : ¬ (Val.le b a = true ∧ ¬ (Val.le a b = true)) := by
    intro hc
    rw [ltStrict_iff.mpr hc] at hba
    simp at hba
  rcases val_le_total a b with h | h
  · have : Val.le b a = true := by
      by_contra hn
      exact h1 ⟨h, hn⟩
    exact val_le_antisymm a b h this
  · have : Val.le a b = true := by
      by_contra hn
      exact h2 ⟨h, hn⟩
    exact val_le_antisymm a b this h

theorem pairLeB_total : ∀ a b : Val × Val, pairLeB a b = true ∨ pairLeB b a = true := by
  intro a b
  unfold pairLeB
  cases hab : Val.ltStrict a.1 b.1
  · cases hba : Val.ltStrict b.1 a.1
    · simp only [Bool.false_eq_true, if_false]
      exact val_le_total a.2 b.2
    · simp
  · simp

theorem pairLeB_trans : ∀ a b c : Val × Val, pairLeB a b = true → pairLeB b c = true → pairLeB a c = true := by
  intro a b c hab hbc
  unfold pairLeB at *
  cases h1 : Val.ltStrict a.1 b.1 <;> rw [h1] at hab
  case true =>
    -- a.1 strictly below b.1
    cases h2 : Val.ltStrict b.1 c.1 <;> rw [h2] at hbc
    case true =>
      have hac : Val.ltStrict a.1 c.1 = true := by
        rcases ltStrict_iff.mp h1 with ⟨l1, n1⟩
        rcases ltStrict_iff.mp h2 with ⟨l2, n2⟩
        refine ltStrict_iff.mpr ⟨val_le_trans _ _ _ l1 l2, fun hca => ?_⟩
        exact n2 (val_le_trans _ _ _ hca l1)
      simp [hac]
    case false =>
      cases h3 : Val.ltStrict c.1 b.1 <;> rw [h3] at hbc
      case false =>
        have hbc1 : b.1 = c.1 := eq_of_not_ltStrict h2 h3
        rw [← hbc1]
        simp [h1]
      case true => simp at hbc
  case false =>
    cases h2 : Val.ltStrict b.1 a.1 <;> rw [h2] at hab
    case false =>
      have hab1 : a.1 = b.1 := eq_of_not_ltStrict h1 h2
      simp only [Bool.false_eq_true, if_false] at hab
      cases h3 : Val.ltStrict b.1 c.1 <;> rw [h3] at hbc
      case true =>
        rw [hab1, h3]
        simp
      case false =>
        cases h4 : Val.ltStrict c.1 b.1 <;> rw [h4] at hbc
        case true => simp at hbc
        case false =>
          simp only [Bool.false_eq_true, if_false] at hbc
          rw [hab1, h3, h4]
          simp only [Bool.false_eq_true, if_false]
          exact val_le_trans _ _ _ hab hbc
    case true => simp at hab

theorem pairLeB_antisymm : ∀ a b : Val × Val, pairLeB a b = true → pairLeB b a = true → a = b := by
  intro a b hab hba
  unfold pairLeB at hab hba
  cases h1 : Val.ltStrict a.1 b.1 <;> rw [h1] at hab hba
  case true =>
    cases h2 : Val.ltStrict b.1 a.1 <;> rw [h2] at hba
    case true => exact absurd (not_ltStrict_both h1 h2) (by simp)
    case false => simp at hba
  case false =>
    cases h2 : Val.ltStrict b.1 a.1 <;> rw [h2] at hab hba
    case true => simp at hab
    case false =>
      simp only [Bool.false_eq_true, if_false] at hab hba
      have e1 : a.1 = b.1 := eq_of_not_ltStrict h1 h2
      have e2 : a.2 = b.2 := val_le_antisymm _ _ hab hba
      exact Prod.ext e1 e2


instance : IsTrans (Val × Val) keyLeP := ⟨fun a b c => pairLeB_trans a b c⟩

instance : IsAntisymm (Val × Val) keyLeP := ⟨fun a b => pairLeB_antisymm a b⟩

instance : IsTotal (Val × Val) keyLeP := ⟨fun a b => pairLeB_total a b⟩

instance (iN iC : ℕ) : IsTotal (List Val) (rowLeP iN iC) :=
  ⟨fun a b => pairLeB_total (keyOf iN iC a) (keyOf iN iC b)⟩

instance (iN iC : ℕ) : IsTrans (List Val) (rowLeP iN iC) :=
  ⟨fun a b c => pairLeB_trans (keyOf iN iC a) (keyOf iN iC b) (keyOf iN iC c)⟩

/-! ## The grouped shift along one node's subsequence -/


/-- Restricted to the rows of one (non-NaN) node key, appending the grouped
shift column and filtering is the successor pairing of the node's own
subsequence — the shift never crosses nodes, in any row order. -/
theorem shift_filter (iN iH : ℕ) (v : Val) (hv : v ≠ Val.na) :
    ∀ rs : List (List Val), (∀ r ∈ rs, iN < r.length) →
      (List.zipWith (fun r f => r ++ [f]) rs (shiftNext iN iH rs)).filter
        (fun r => r.getD iN Val.na == v)
      = chainAnnot iH (rs.filter (fun r => r.getD iN Val.na == v)) := by
  intro rs
  induction rs with
  | nil => intro _; simp [shiftNext, chainAnnot]
  | cons r rest ih =>
    intro hlen
    have hr : iN < r.length := hlen r (by simp)
    have hrest : ∀ r2 ∈ rest, iN < r2.length := fun r2 h2 => hlen r2 (by simp [h2])
    have hget : (r ++ [nextVal iN iH r rest]).getD iN Val.na = r.getD iN Val.na :=
      List.getD_append _ _ _ _ hr
    simp only [shiftNext, List.zipWith_cons_cons]
    by_cases hp : r.getD iN Val.na = v
    · rw [List.filter_cons_of_pos
            (by show ((r ++ [nextVal iN iH r rest]).getD iN Val.na == v) = true
                rw [hget, hp, beq_self_eq_true]),
          List.filter_cons_of_pos
            (by show (r.getD iN Val.na == v) = true
                rw [hp, beq_self_eq_true])]
      have hnv : nextVal iN iH r rest =
          match (rest.filter (fun r2 => r2.getD iN Val.na == v)).head? with
          | some r2 => r2.getD iH Val.na
          | none => Val.na := by
        unfold nextVal
        rw [if_neg (by rw [hp]; exact hv)]
        simp only [hp]
        rw [find?_eq_head_filter]
      rw [hnv, ih hrest]
      cases hflt : rest.filter (fun r2 => r2.getD iN Val.na == v) with
      | nil => simp [chainAnnot]
      | cons r2 rest2 => simp [chainAnnot]
    · rw [List.filter_cons_of_neg
            (by show ¬ ((r ++ [nextVal iN iH r rest]).getD iN Val.na == v) = true
                rw [hget]
                exact fun hc => hp (beq_iff_eq.mp hc)),
          List.filter_cons_of_neg
            (by show ¬ (r.getD iN Val.na == v) = true
                exact fun hc => hp (beq_iff_eq.mp hc))]
      exact ih hrest

/-- A pairwise-ordered permutation of three strictly ordered elements is
exactly that three-element list. -/
theorem sorted_perm_three {α : Type} (R : α → α → Prop) (a b c : α) (l : List α)
    (hperm : l.Perm [a, b, c]) (hsort : l.Pairwise R)
    (hab : R a b) (hbc : R b c)
    (nba : ¬ R b a) (ncb : ¬ R c b) (nca : ¬ R c a) : l = [a, b, c] := by
  have hne_ab : a ≠ b := by
    intro h
    rw [h] at hab nba
    exact nba hab
  have hne_bc : b ≠ c := by
    intro h
    rw [← h] at hbc ncb
    exact ncb hbc
  have hne_ac : a ≠ c := by
    intro h
    rw [← h] at hbc
    exact nba hbc
  have hlen : l.length = 3 := by simpa using hperm.length_eq
  match l, hlen with
  | [x, y, z], _ =>
    have hRxy : R x y := by
      rcases hsort with _ | ⟨h1, _⟩
      exact h1 y (by simp)
    have hRxz : R x z := by
      rcases hsort with _ | ⟨h1, _⟩
      exact h1 z (by simp)
    have hRyz : R y z := by
      rcases hsort with _ | ⟨_, _ | ⟨h2, _⟩⟩
      exact h2 z (by simp)
    have hx : x = a ∨ x = b ∨ x = c := by
      have : x ∈ [a, b, c] := hperm.mem_iff.mp (by simp)
      simpa using this
    have hxa : x = a := by
      rcases hx with h | h | h
      · exact h
      · exfalso
        have ha : a ∈ [x, y, z] := hperm.mem_iff.mpr (by simp)
        rcases (by simpa using ha : a = x ∨ a = y ∨ a = z) with h1 | h1 | h1
        · exact hne_ab (h1.trans h)
        · rw [h, ← h1] at hRxy
          exact nba hRxy
        · rw [h, ← h1] at hRxz
          exact nba hRxz
      · exfalso
        have ha : a ∈ [x, y, z] := hperm.mem_iff.mpr (by simp)
        rcases (by simpa using ha : a = x ∨ a = y ∨ a = z) with h1 | h1 | h1
        · exact hne_ac (h1.trans h).symm.symm
        · rw [h, ← h1] at hRxy
          exact nca hRxy
        · rw [h, ← h1] at hRxz
          exact nca hRxz
    subst hxa
    have hyz : [y, z].Perm [b, c] := hperm.cons_inv
    have hy : y = b ∨ y = c := by
      have : y ∈ [b, c] := hyz.mem_iff.mp (by simp)
      simpa using this
    rcases hy with h | h
    · subst h
      have hz : z = c := by simpa using List.perm_singleton.mp hyz.cons_inv
      rw [hz]
    · exfalso
      have hb : b ∈ [y, z] := hyz.mem_iff.mpr (by simp)
      rcases (by simpa using hb : b = y ∨ b = z) with h1 | h1
      · exact hne_bc (h1.trans h)
      · rw [h, ← h1] at hRyz
        exact ncb hRyz

/-! ## The training table, restricted to one node -/

/-- Under the column hypotheses, the training-mode table construction
succeeds, appends `humidity_future` as the last column, and its rows for a
given node key are the successor pairing of that node's sorted subsequence
with the target-less tail row dropped. -/
theorem trainTable_node_rows
    (df1 : DF) (iN iC iH : ℕ) (v : Val) (hv : v ≠ Val.na)
    (hiN : colIdx "node_id" df1.cols = some iN)
    (hiC : colIdx "createdAt" df1.cols = some iC)
    (hiH : colIdx "humidity_percent" df1.cols = some iH)
    (hnf : "humidity_future" ∉ df1.cols)
    (hwf : ∀ r ∈ df1.rows, r.length = df1.cols.length) :
    ∃ t : DF, trainTable df1 = .ok t ∧
      t.cols = df1.cols ++ ["humidity_future"] ∧
      t.rows.filter (fun r => r.getD iN Val.na == v) =
        (chainAnnot iH ((List.insertionSort (rowLeP iN iC) df1.rows).filter
            (fun r => r.getD iN Val.na == v))).filter
          (fun r => r.getD df1.cols.length Val.na != Val.na) := by
  have hS : sortValues df1 = .ok ⟨df1.cols, List.insertionSort (rowLeP iN iC) df1.rows⟩ := by
    unfold sortValues
    rw [hiN, hiC]
  have hlenS : ∀ r ∈ List.insertionSort (rowLeP iN iC) df1.rows, iN < r.length := by
    intro r hr
    have hmem : r ∈ df1.rows := (List.perm_insertionSort (rowLeP iN iC) df1.rows).mem_iff.mp hr
    rw [hwf r hmem]
    exact colIdx_lt_length hiN
  have hfut : groupShift ⟨df1.cols, List.insertionSort (rowLeP iN iC) df1.rows⟩
      = .ok (shiftNext iN iH (List.insertionSort (rowLeP iN iC) df1.rows)) := by
    unfold groupShift
    simp only
    rw [hiN, hiH]
  have hset : setCol ⟨df1.cols, List.insertionSort (rowLeP iN iC) df1.rows⟩ "humidity_future"
        (shiftNext iN iH (List.insertionSort (rowLeP iN iC) df1.rows))
      = ⟨df1.cols ++ ["humidity_future"],
         List.zipWith (fun r f => r ++ [f]) (List.insertionSort (rowLeP iN iC) df1.rows)
           (shiftNext iN iH (List.insertionSort (rowLeP iN iC) df1.rows))⟩ := by
    unfold setCol
    simp only
    rw [colIdx_eq_none_iff.mpr hnf]
  have hdrop : dropnaSubset
      ⟨df1.cols ++ ["humidity_future"],
       List.zipWith (fun r f => r ++ [f]) (List.insertionSort (rowLeP iN iC) df1.rows)
         (shiftNext iN iH (List.insertionSort (rowLeP iN iC) df1.rows))⟩ "humidity_future"
      = .ok ⟨df1.cols ++ ["humidity_future"],
         (List.zipWith (fun r f => r ++ [f]) (List.insertionSort (rowLeP iN iC) df1.rows)
           (shiftNext iN iH (List.insertionSort (rowLeP iN iC) df1.rows))).filter
           (fun r => r.getD df1.cols.length Val.na != Val.na)⟩ := by
    unfold dropnaSubset
    simp only
    rw [colIdx_append_new hnf]
  refine ⟨⟨df1.cols ++ ["humidity_future"],
      (List.zipWith (fun r f => r ++ [f]) (List.insertionSort (rowLeP iN iC) df1.rows)
        (shiftNext iN iH (List.insertionSort (rowLeP iN iC) df1.rows))).filter
        (fun r => r.getD df1.cols.length Val.na != Val.na)⟩, ?_, rfl, ?_⟩
  · unfold trainTable
    rw [hS]
    simp only
    rw [hfut]
    simp only
    rw [hset, hdrop]
  · simp only
    rw [List.filter_comm]
    rw [shift_filter iN iH v hv _ hlenS]

/-! ## Columns added by the schema-completeness loop -/

theorem setCol_mem_cols {df : DF} {c' : String} (vs : List Val) {c : String} :
    c ∈ (setCol df c' vs).cols ↔ c ∈ df.cols ∨ c = c' := by
  unfold setCol
  cases h : colIdx c' df.cols with
  | some i =>
    simp only
    constructor
    · exact fun hm => Or.inl hm
    · rintro (hm | rfl)
      · exact hm
      · by_contra hn
        rw [colIdx_eq_none_iff.mpr hn] at h
        exact Option.noConfusion h
  | none => simp

theorem efStep_mono {d : DF} {c c' : String} (h : c ∈ d.cols) : c ∈ (efStep d c').cols := by
  unfold efStep
  split
  · exact h
  · exact (setCol_mem_cols _).mpr (Or.inl h)

theorem efStep_adds (d : DF) (c : String) : c ∈ (efStep d c).cols := by
  unfold efStep
  split
  · assumption
  · exact (setCol_mem_cols _).mpr (Or.inr rfl)

theorem foldl_ef_mono : ∀ (l : List String) (d : DF) (c : String), c ∈ d.cols → c ∈ (l.foldl efStep d).cols := by
  intro l
  induction l with
  | nil => intro d c h; exact h
  | cons c' rest ih => intro d c h; exact ih (efStep d c') c (efStep_mono h)

theorem foldl_ef_mem : ∀ (l : List String) (d : DF) (c : String), c ∈ l → c ∈ (l.foldl efStep d).cols := by
  intro l
  induction l with
  | nil => intro d c h; simp at h
  | cons c' rest ih =>
    intro d c h
    rcases List.mem_cons.mp h with rfl | h
    · exact foldl_ef_mono rest (efStep d c) c (efStep_adds d c)
    · exact ih (efStep d c') c h

theorem ensureFeatures_mem (df : DF) : ∀ c ∈ features, c ∈ (ensureFeatures df).cols :=
  fun c hc => foldl_ef_mem features df c hc

theorem callerFrame_features {df df1 : DF} (h : callerFrame df = .ok df1) :
    ∀ c ∈ features, c ∈ df1.cols := by
  unfold callerFrame at h
  cases ha : addTemporal df with
  | error e => rw [ha] at h; exact Except.noConfusion h
  | ok d =>
    rw [ha] at h
    have : df1 = ensureFeatures d := by
      injection h with h'
      exact h'.symm
    rw [this]
    exact ensureFeatures_mem d

/-! ## Success and shape of the projections -/

theorem select_ok_of_mem (df : DF) (names : List String) (h : ∀ c ∈ names, c ∈ df.cols) :
    select df names
      = .ok ⟨names, df.rows.map (fun r => names.map (fun c => r.getD ((colIdx c df.cols).getD 0) Val.na))⟩ := by
  unfold select
  rw [if_pos]
  rw [List.all_eq_true]
  intro c hc
  exact colIdx_isSome_of_mem (h c hc)

theorem select_ok_cols {df X : DF} {names : List String} (h : select df names = .ok X) :
    X.cols = names := by
  unfold select at h
  split at h
  · injection h with h'
    rw [← h']
  · exact Except.noConfusion h

theorem getColVals_ok_of_mem (df : DF) (c : String) (h : c ∈ df.cols) :
    ∃ i, colIdx c df.cols = some i ∧ getColVals df c = .ok (df.rows.map (fun r => r.getD i Val.na)) := by
  cases hc : colIdx c df.cols with
  | none => exact absurd h (colIdx_eq_none_iff.mp hc)
  | some i =>
    refine ⟨i, rfl, ?_⟩
    unfold getColVals
    rw [hc]

/-- Whenever the in-place phase succeeded and the training table was built,
the whole training-mode call succeeds with the feature projection and the
target column of that table. -/
theorem preprocess_train_ok
    (df df1 t : DF)
    (hcf : callerFrame df = .ok df1)
    (ht : trainTable df1 = .ok t)
    (htc : t.cols = df1.cols ++ ["humidity_future"]) :
    ∃ X y, preprocess_data df true = .ok (.training X y)
      ∧ select t features = .ok X ∧ getColVals t "humidity_future" = .ok y := by
  have hfeat : ∀ c ∈ features, c ∈ t.cols := by
    intro c hc
    rw [htc]
    exact List.mem_append_left _ (callerFrame_features hcf c hc)
  have hhf : "humidity_future" ∈ t.cols := by
    rw [htc]
    exact List.mem_append_right _ (by simp)
  have hsel := select_ok_of_mem t features hfeat
  obtain ⟨i, _, hy⟩ := getColVals_ok_of_mem t "humidity_future" hhf
  refine ⟨_, _, ?_, hsel, hy⟩
  unfold preprocess_data
  rw [hcf]
  simp only [if_pos]
  unfold preprocessTrain
  rw [ht]
  simp only
  rw [hsel]
  simp only
  rw [hy]


/-! ## Claim theorems -/

/-- C1: Schema parity — every X table returned by `preprocess_data`, in
training mode or in inference mode, carries exactly the fixed feature columns
`humidity_percent, raw_value, rssi, voltage, sampling_interval, hour,
day_of_week`, in that order, with the target column excluded; in particular
the two modes agree on any input on which both succeed. -/
theorem c1_schema_parity :
    (∀ (df X : DF) (y : List Val), preprocess_data df true = .ok (.training X y) → X.cols = features)
    ∧ (∀ (df X : DF), preprocess_data df false = .ok (.inference X) → X.cols = features) := by
  constructor
  · intro df X y h
    unfold preprocess_data at h
    cases hcf : callerFrame df with
    | error e => rw [hcf] at h; exact Except.noConfusion h
    | ok df1 =>
      simp only [hcf] at h
      rw [if_pos trivial] at h
      unfold preprocessTrain at h
      cases ht : trainTable df1 with
      | error e => simp only [ht] at h; exact Except.noConfusion h
      | ok t =>
        simp only [ht] at h
        cases hs : select t features with
        | error e => simp only [hs] at h; exact Except.noConfusion h
        | ok X' =>
          simp only [hs] at h
          cases hy : getColVals t "humidity_future" with
          | error e => simp only [hy] at h; exact Except.noConfusion h
          | ok y' =>
            simp only [hy] at h
            injection h with h1
            injection h1 with h2 h3
            rw [← h2]
            exact select_ok_cols hs
  · intro df X h
    unfold preprocess_data at h
    cases hcf : callerFrame df with
    | error e => rw [hcf] at h; exact Except.noConfusion h
    | ok df1 =>
      simp only [hcf] at h
      rw [if_neg Bool.false_ne_true] at h
      unfold preprocessInfer at h
      cases hs : select df1 features with
      | error e => simp only [hs] at h; exact Except.noConfusion h
      | ok X' =>
        simp only [hs] at h
        injection h with h1
        injection h1 with h2
        rw [← h2]
        exact select_ok_cols hs


/-- C1 witness: both modes evaluated on a concrete raw table. -/
theorem c1_schema_parity_witness :
    preprocess_data dfW true = .ok (.training dfW_trainX [Val.num 55])
    ∧ dfW_trainX.cols = features
    ∧ preprocess_data dfW false = .ok (.inference dfW_inferX)
    ∧ dfW_inferX.cols = features := by
  have hT : preprocess_data dfW true = .ok (.training dfW_trainX [Val.num 55]) := by decide
  have hI : preprocess_data dfW false = .ok (.inference dfW_inferX) := by decide
  exact ⟨hT, c1_schema_parity.1 dfW dfW_trainX [Val.num 55] hT,
         hI, c1_schema_parity.2 dfW dfW_inferX hI⟩

/-- C4: Fold clamping — whenever `min(k, |X|) ≥ 2`, `evaluate` runs
cross-validation with exactly `min(k, |X|)` folds and raises no error. -/
theorem c4_fold_clamping (runCV : ℕ → Metrics) (nX k : ℕ) (h : 2 ≤ min k nX) :
    evaluate runCV nX k = .ok (runCV (min k nX)) := by
  rcases Nat.lt_or_ge nX k with hlt | hge
  · have hmin : min k nX = nX := min_eq_right (le_of_lt hlt)
    rw [hmin] at h ⊢
    unfold evaluate kfoldCV
    rw [if_pos hlt, if_neg (by omega), if_neg (by omega), if_neg (by omega)]
  · have hmin : min k nX = k := min_eq_left hge
    rw [hmin] at h ⊢
    unfold evaluate kfoldCV
    rw [if_neg (by omega), if_neg (by omega), if_neg (by omega)]

/-- C4 witness: k = 10 requested on 4 rows uses exactly 4 folds. -/
theorem c4_fold_clamping_witness :
    2 ≤ min 10 4 ∧ evaluate (fun f => ⟨(f : ℚ), 0⟩) 4 10 = .ok ⟨((min 10 4 : ℕ) : ℚ), 0⟩ :=
  ⟨by decide, c4_fold_clamping (fun f => ⟨(f : ℚ), 0⟩) 4 10 (by decide)⟩

/-- C5 counterexample: with requested fold count 1 on 2 rows the clamped
count `min(1, 2)` is below 2, yet `evaluate` does not return the degenerate
metrics — `KFold(n_splits=1)` raises instead. -/
theorem c5_degenerate_metrics_cex :
    min 1 2 < 2
    ∧ evaluate (fun _ => ⟨1, 1⟩) 2 1 ≠ .ok ⟨0, 0⟩
    ∧ evaluate (fun _ => ⟨1, 1⟩) 2 1 = .error () := by decide

/-- C5 amended: for every requested fold count k ≥ 2 (the clamp's inner
check only runs after `k_folds` was lowered to `len(X)`), whenever
`min(k, |X|) < 2` the evaluation is skipped and the degenerate metrics
`{rmse_mean: 0.0, rmse_std: 0.0}` are returned with no error. -/
theorem c5_degenerate_metrics (runCV : ℕ → Metrics) (nX k : ℕ)
    (hk : 2 ≤ k) (h : min k nX < 2) :
    evaluate runCV nX k = .ok ⟨0, 0⟩ := by
  unfold evaluate
  rw [if_pos (by omega), if_pos (by omega)]

/-- C5 witness: a one-row dataset with the default k = 5. -/
theorem c5_degenerate_metrics_witness :
    2 ≤ 5 ∧ min 5 1 < 2 ∧ evaluate (fun _ => ⟨1, 1⟩) 1 5 = .ok ⟨0, 0⟩ :=
  ⟨by decide, by decide, c5_degenerate_metrics (fun _ => ⟨1, 1⟩) 1 5 (by decide) (by decide)⟩

/-- C6: Predictor argument validation — with fewer than 7 positional values
the predictor prints the structured insufficient-arguments object, exits
non-zero, and never attempts to load the model. -/
theorem c6_predictor_validation (env : ServerEnv) (args : List Tok) (h : args.length < 7) :
    (predictRun env args).stdout = [JsonOut.insufficientArgs]
    ∧ (predictRun env args).exitCode ≠ 0
    ∧ (predictRun env args).loadAttempted = false := by
  unfold predictRun
  rw [if_pos (by omega)]
  refine ⟨rfl, ?_, rfl⟩
  decide



/-- C6 witness: six arguments. -/
theorem c6_predictor_validation_witness :
    argsW6.length < 7
    ∧ (predictRun envW argsW6).stdout = [JsonOut.insufficientArgs]
    ∧ (predictRun envW argsW6).exitCode ≠ 0
    ∧ (predictRun envW argsW6).loadAttempted = false :=
  ⟨by decide, c6_predictor_validation envW argsW6 (by decide)⟩

/-- C7: Predictor failure semantics — every invocation prints exactly one
structured object on stdout, and the exit status is 0 exactly when that
object is the success shape; every failure path yields a structured error
object together with a non-zero exit status. -/
theorem c7_predictor_failure_semantics (env : ServerEnv) (args : List Tok) :
    ∃ o : JsonOut, (predictRun env args).stdout = [o]
      ∧ (predictRun env args).exitCode = (if o.isSuccess then 0 else 1) := by
  unfold predictRun
  split
  · exact ⟨.insufficientArgs, rfl, rfl⟩
  · cases hp : parseArgsDF args with
    | none => exact ⟨.failed, rfl, rfl⟩
    | some df =>
      simp only [hp]
      cases hi : preprocessInfer df with
      | error e => exact ⟨.failed, rfl, rfl⟩
      | ok X =>
        simp only [hi]
        cases hm : env.modelExists
        · exact ⟨.failed, rfl, rfl⟩
        · cases hv : env.modelPredict X with
          | ok v => exact ⟨.success v, by simp [hv], by simp [hv, JsonOut.isSuccess]⟩
          | error e => exact ⟨.failed, by simp [hv], by simp [hv, JsonOut.isSuccess]⟩

/-- C9 counterexample: when the model write fails, the metrics write is
never attempted — a failure persisting one artifact does prevent the
attempt to persist the other. -/
theorem c9_independent_persistence_cex :
    (persistArtifacts ⟨false, true⟩).attempted = [PersistEvent.modelSave]
    ∧ PersistEvent.metricsSave ∉ (persistArtifacts ⟨false, true⟩).attempted := by decide

/-- C9 amended: the two persist calls are strictly sequential and unguarded:
the model write is always attempted first, the metrics write is attempted
exactly when the model write succeeded — so a metrics failure cannot discard
the already-saved model, but a model failure prevents the metrics attempt. -/
theorem c9_independent_persistence (env : FsEnv) :
    (persistArtifacts env).attempted
      = (if env.modelSaveOk then [PersistEvent.modelSave, PersistEvent.metricsSave]
         else [PersistEvent.modelSave])
    ∧ (persistArtifacts env).modelPersisted = env.modelSaveOk
    ∧ (persistArtifacts env).metricsPersisted = (env.modelSaveOk && env.metricsSaveOk)
    ∧ (persistArtifacts env).raised = (!env.modelSaveOk || !env.metricsSaveOk) := by
  obtain ⟨m, k⟩ := env
  cases m <;> cases k <;> decide


/-- C8 counterexample: in training mode the build is not total — a table
without a `createdAt` column makes `sort_values(by=['node_id','createdAt'])`
raise, so `preprocess_data` fails instead of defaulting. -/
theorem c8_feature_totality_cex : preprocess_data dfMissingTs true = .error () := by decide


/-- C10 counterexample: on a table already in processed form the call leaves
the caller's table unchanged — the table observed afterwards is exactly the
table passed in, against the claim that it never is. -/
theorem c10_frame_mutation_cex :
    callerFrame dfFixed = .ok dfFixed
    ∧ preprocess_data dfFixed false = .ok (.inference dfFixed) := by decide

/-! ## C2 and C3: per-node target construction -/

theorem pairLeB_same_fst (x a b : Val) : pairLeB (x, a) (x, b) = Val.le a b := by
  unfold pairLeB
  simp [ltStrict_irrefl]

theorem getD_append_len {x d : Val} {r : List Val} {L : ℕ} (h : r.length = L) :
    (r ++ [x]).getD L d = x := by
  subst h
  rw [List.getD_append_right _ _ _ _ (le_refl _)]
  simp

/-- C2: Target correctness — for every training-mode build whose in-place
phase produced the table `df1`, and every node key `v` whose readings are
exactly three rows with strictly increasing timestamps t1 < t2 < t3 and
humidities h1, h2, h3, the built training table contains, for that node,
exactly the t1 row with `humidity_future = h2` and the t2 row with
`humidity_future = h3`; no row derives from the t3 reading, and the whole
build succeeds. -/
theorem c2_target_correctness
    (df df1 : DF) (iN iC iH : ℕ) (v : Val)
    (r1 r2 r3 : List Val) (t1 t2 t3 : ℕ) (h1 h2 h3 : ℚ)
    (hcf : callerFrame df = .ok df1)
    (hwf : ∀ r ∈ df1.rows, r.length = df1.cols.length)
    (hiN : colIdx "node_id" df1.cols = some iN)
    (hiC : colIdx "createdAt" df1.cols = some iC)
    (hiH : colIdx "humidity_percent" df1.cols = some iH)
    (hnf : "humidity_future" ∉ df1.cols)
    (hv : v ≠ Val.na)
    (hfil : (df1.rows.filter (fun r => r.getD iN Val.na == v)).Perm [r1, r2, r3])
    (hn1 : r1.getD iN Val.na = v) (hn2 : r2.getD iN Val.na = v) (hn3 : r3.getD iN Val.na = v)
    (hc1 : r1.getD iC Val.na = .ts t1) (hc2 : r2.getD iC Val.na = .ts t2)
    (hc3 : r3.getD iC Val.na = .ts t3)
    (_hh1 : r1.getD iH Val.na = .num h1) (hh2 : r2.getD iH Val.na = .num h2)
    (hh3 : r3.getD iH Val.na = .num h3)
    (hlt12 : t1 < t2) (hlt23 : t2 < t3) :
    ∃ t X y, trainTable df1 = .ok t
      ∧ preprocess_data df true = .ok (.training X y)
      ∧ t.rows.filter (fun r => r.getD iN Val.na == v)
          = [r1 ++ [Val.num h2], r2 ++ [Val.num h3]] := by
  obtain ⟨t, ht, htc, hrows⟩ := trainTable_node_rows df1 iN iC iH v hv hiN hiC hiH hnf hwf
  obtain ⟨X, y, hP, _, _⟩ := preprocess_train_ok df df1 t hcf ht htc
  refine ⟨t, X, y, ht, hP, ?_⟩
  have hsortperm :
      ((List.insertionSort (rowLeP iN iC) df1.rows).filter (fun r => r.getD iN Val.na == v)).Perm
        [r1, r2, r3] :=
    (List.Perm.filter _ (List.perm_insertionSort _ _)).trans hfil
  have hpair :
      ((List.insertionSort (rowLeP iN iC) df1.rows).filter
        (fun r => r.getD iN Val.na == v)).Pairwise (rowLeP iN iC) :=
    List.Pairwise.filter _ (List.sorted_insertionSort (rowLeP iN iC) df1.rows)
  have hR12 : rowLeP iN iC r1 r2 := by
    show pairLeB (keyOf iN iC r1) (keyOf iN iC r2) = true
    unfold keyOf
    rw [hn1, hn2, hc1, hc2, pairLeB_same_fst]
    simp [Val.le]
    omega
  have hR23 : rowLeP iN iC r2 r3 := by
    show pairLeB (keyOf iN iC r2) (keyOf iN iC r3) = true
    unfold keyOf
    rw [hn2, hn3, hc2, hc3, pairLeB_same_fst]
    simp [Val.le]
    omega
  have hnR21 : ¬ rowLeP iN iC r2 r1 := by
    show ¬ pairLeB (keyOf iN iC r2) (keyOf iN iC r1) = true
    unfold keyOf
    rw [hn1, hn2, hc1, hc2, pairLeB_same_fst]
    simp [Val.le]
    omega
  have hnR32 : ¬ rowLeP iN iC r3 r2 := by
    show ¬ pairLeB (keyOf iN iC r3) (keyOf iN iC r2) = true
    unfold keyOf
    rw [hn2, hn3, hc2, hc3, pairLeB_same_fst]
    simp [Val.le]
    omega
  have hnR31 : ¬ rowLeP iN iC r3 r1 := by
    show ¬ pairLeB (keyOf iN iC r3) (keyOf iN iC r1) = true
    unfold keyOf
    rw [hn1, hn3, hc1, hc3, pairLeB_same_fst]
    simp [Val.le]
    omega
  have hfilEq :
      (List.insertionSort (rowLeP iN iC) df1.rows).filter (fun r => r.getD iN Val.na == v)
        = [r1, r2, r3] :=
    sorted_perm_three (rowLeP iN iC) r1 r2 r3 _ hsortperm hpair hR12 hR23 hnR21 hnR32 hnR31
  rw [hfilEq] at hrows
  have hch : chainAnnot iH [r1, r2, r3]
      = [r1 ++ [Val.num h2], r2 ++ [Val.num h3], r3 ++ [Val.na]] := by
    simp only [chainAnnot]
    rw [hh2, hh3]
  rw [hch] at hrows
  have hr1mem : r1 ∈ df1.rows := by
    have hmem : r1 ∈ df1.rows.filter (fun r => r.getD iN Val.na == v) :=
      hfil.mem_iff.mpr (by simp)
    exact (List.mem_filter.mp hmem).1
  have hr2mem : r2 ∈ df1.rows := by
    have hmem : r2 ∈ df1.rows.filter (fun r => r.getD iN Val.na == v) :=
      hfil.mem_iff.mpr (by simp)
    exact (List.mem_filter.mp hmem).1
  have hr3mem : r3 ∈ df1.rows := by
    have hmem : r3 ∈ df1.rows.filter (fun r => r.getD iN Val.na == v) :=
      hfil.mem_iff.mpr (by simp)
    exact (List.mem_filter.mp hmem).1
  rw [hrows]
  rw [List.filter_cons_of_pos
        (by show ((r1 ++ [Val.num h2]).getD df1.cols.length Val.na != Val.na) = true
            rw [getD_append_len (hwf r1 hr1mem)]
            simp),
      List.filter_cons_of_pos
        (by show ((r2 ++ [Val.num h3]).getD df1.cols.length Val.na != Val.na) = true
            rw [getD_append_len (hwf r2 hr2mem)]
            simp),
      List.filter_cons_of_neg
        (by show ¬ ((r3 ++ [Val.na]).getD df1.cols.length Val.na != Val.na) = true
            rw [getD_append_len (hwf r3 hr3mem)]
            simp)]
  simp

/-- C3: Single-reading node exclusion — a node key `v` occurring in exactly
one row of the phase-1 table contributes no row at all to the built training
table, and the build nevertheless succeeds. -/
theorem c3_single_reading_exclusion
    (df df1 : DF) (iN iC iH : ℕ) (v : Val) (r : List Val)
    (hcf : callerFrame df = .ok df1)
    (hwf : ∀ r2 ∈ df1.rows, r2.length = df1.cols.length)
    (hiN : colIdx "node_id" df1.cols = some iN)
    (hiC : colIdx "createdAt" df1.cols = some iC)
    (hiH : colIdx "humidity_percent" df1.cols = some iH)
    (hnf : "humidity_future" ∉ df1.cols)
    (hv : v ≠ Val.na)
    (hfil : df1.rows.filter (fun r2 => r2.getD iN Val.na == v) = [r]) :
    ∃ t X y, trainTable df1 = .ok t
      ∧ preprocess_data df true = .ok (.training X y)
      ∧ t.rows.filter (fun r2 => r2.getD iN Val.na == v) = [] := by
  obtain ⟨t, ht, htc, hrows⟩ := trainTable_node_rows df1 iN iC iH v hv hiN hiC hiH hnf hwf
  obtain ⟨X, y, hP, _, _⟩ := preprocess_train_ok df df1 t hcf ht htc
  refine ⟨t, X, y, ht, hP, ?_⟩
  have hsortperm :
      ((List.insertionSort (rowLeP iN iC) df1.rows).filter (fun r2 => r2.getD iN Val.na == v)).Perm
        [r] := by
    have := List.Perm.filter (fun r2 => r2.getD iN Val.na == v)
      (List.perm_insertionSort (rowLeP iN iC) df1.rows)
    rw [hfil] at this
    exact this
  have hfilEq :
      (List.insertionSort (rowLeP iN iC) df1.rows).filter (fun r2 => r2.getD iN Val.na == v)
        = [r] := List.perm_singleton.mp hsortperm
  rw [hfilEq] at hrows
  have hrmem : r ∈ df1.rows := by
    have hmem : r ∈ df1.rows.filter (fun r2 => r2.getD iN Val.na == v) := by
      rw [hfil]
      simp
    exact (List.mem_filter.mp hmem).1
  rw [hrows]
  show List.filter _ (chainAnnot iH [r]) = []
  have hch : chainAnnot iH [r] = [r ++ [Val.na]] := by simp [chainAnnot]
  rw [hch]
  rw [List.filter_cons_of_neg
        (by show ¬ ((r ++ [Val.na]).getD df1.cols.length Val.na != Val.na) = true
            rw [getD_append_len (hwf r hrmem)]
            simp)]
  rfl


/-- C2 witness: the three-reading node of `dfW3`. -/
theorem c2_target_correctness_witness :
    ∃ t X y, trainTable df1W3 = .ok t
      ∧ preprocess_data dfW3 true = .ok (.training X y)
      ∧ t.rows.filter (fun r => r.getD 0 Val.na == Val.num 1)
          = [w3r1 ++ [Val.num 55], w3r2 ++ [Val.num 60]] :=
  c2_target_correctness dfW3 df1W3 0 1 2 (Val.num 1) w3r1 w3r2 w3r3 3600 7200 10800 50 55 60
    (by decide) (by decide) (by decide) (by decide) (by decide) (by decide) (by decide)
    (by decide) (by decide) (by decide) (by decide) (by decide) (by decide) (by decide)
    (by decide) (by decide) (by decide) (by decide) (by decide)

/-- C3 witness: the single-reading node of `dfW3`. -/
theorem c3_single_reading_exclusion_witness :
    ∃ t X y, trainTable df1W3 = .ok t
      ∧ preprocess_data dfW3 true = .ok (.training X y)
      ∧ t.rows.filter (fun r2 => r2.getD 0 Val.na == Val.num 2) = [] :=
  c3_single_reading_exclusion dfW3 df1W3 0 1 2 (Val.num 2) w3r
    (by decide) (by decide) (by decide) (by decide) (by decide) (by decide) (by decide)
    (by decide)

/-! ## Cell-level preservation under column assignment -/

theorem getD_set_self {α : Type} (a d : α) :
    ∀ (l : List α) (i : ℕ), i < l.length → (l.set i a).getD i d = a := by
  intro l
  induction l with
  | nil => intro i h; simp at h
  | cons x rest ih =>
    intro i h
    cases i with
    | zero => simp
    | succ j =>
      show (x :: rest.set j a).getD (j + 1) d = a
      rw [List.getD_cons_succ]
      exact ih j (by simpa using h)

theorem getD_set_other {α : Type} (a d : α) :
    ∀ (l : List α) (i j : ℕ), i ≠ j → (l.set i a).getD j d = l.getD j d := by
  intro l
  induction l with
  | nil => intro i j _; rfl
  | cons x rest ih =>
    intro i j hne
    cases i with
    | zero =>
      cases j with
      | zero => exact absurd rfl hne
      | succ j' => simp
    | succ i' =>
      cases j with
      | zero => simp
      | succ j' =>
        show (x :: rest.set i' a).getD (j' + 1) d = _
        rw [List.getD_cons_succ, List.getD_cons_succ]
        exact ih i' j' (fun hc => hne (by rw [hc]))

theorem colIdx_append_ne {c c' : String} (hne : c ≠ c') (l : List String) :
    colIdx c (l ++ [c']) = colIdx c l := by
  by_cases hm : c ∈ l
  · exact colIdx_append_of_mem _ hm
  · rw [colIdx_eq_none_iff.mpr hm, colIdx_eq_none_iff.mpr]
    intro hc
    rcases List.mem_append.mp hc with h | h
    · exact hm h
    · exact hne (by simpa using h)

theorem mem_zipWith_struct {α β γ : Type} {f : α → β → γ} :
    ∀ {as : List α} {bs : List β} {x : γ}, x ∈ List.zipWith f as bs →
      ∃ a ∈ as, ∃ b ∈ bs, x = f a b := by
  intro as
  induction as with
  | nil => intro bs x h; simp at h
  | cons a rest ih =>
    intro bs x h
    cases bs with
    | nil => simp at h
    | cons b bs' =>
      rw [List.zipWith_cons_cons] at h
      rcases List.mem_cons.mp h with rfl | h'
      · exact ⟨a, by simp, b, by simp, rfl⟩
      · obtain ⟨a', ha, b', hb, hx⟩ := ih h'
        exact ⟨a', by simp [ha], b', by simp [hb], hx⟩

theorem map_getD_zipWith_set (i : ℕ) :
    ∀ (rows : List (List Val)) (vs : List Val), vs.length = rows.length →
      (∀ r ∈ rows, i < r.length) →
      (List.zipWith (fun r v => r.set i v) rows vs).map (fun r => r.getD i Val.na) = vs := by
  intro rows
  induction rows with
  | nil =>
    intro vs h _
    cases vs with
    | nil => rfl
    | cons v vs' => simp at h
  | cons r rest ih =>
    intro vs h hlt
    cases vs with
    | nil => simp at h
    | cons v vs' =>
      rw [List.zipWith_cons_cons, List.map_cons]
      rw [getD_set_self _ _ _ _ (hlt r (by simp))]
      rw [ih vs' (by simpa using h) (fun r2 h2 => hlt r2 (by simp [h2]))]

theorem map_getD_zipWith_set_other {i i' : ℕ} (hne : i' ≠ i) :
    ∀ (rows : List (List Val)) (vs : List Val), vs.length = rows.length →
      (List.zipWith (fun r v => r.set i' v) rows vs).map (fun r => r.getD i Val.na)
        = rows.map (fun r => r.getD i Val.na) := by
  intro rows
  induction rows with
  | nil => intro vs _; rfl
  | cons r rest ih =>
    intro vs h
    cases vs with
    | nil => simp at h
    | cons v vs' =>
      rw [List.zipWith_cons_cons, List.map_cons, List.map_cons]
      rw [getD_set_other _ _ _ _ _ hne]
      rw [ih vs' (by simpa using h)]

theorem map_getD_zipWith_append {L : ℕ} :
    ∀ (rows : List (List Val)) (vs : List Val), vs.length = rows.length →
      (∀ r ∈ rows, r.length = L) →
      (List.zipWith (fun r v => r ++ [v]) rows vs).map (fun r => r.getD L Val.na) = vs := by
  intro rows
  induction rows with
  | nil =>
    intro vs h _
    cases vs with
    | nil => rfl
    | cons v vs' => simp at h
  | cons r rest ih =>
    intro vs h hlen
    cases vs with
    | nil => simp at h
    | cons v vs' =>
      rw [List.zipWith_cons_cons, List.map_cons]
      rw [getD_append_len (hlen r (by simp))]
      rw [ih vs' (by simpa using h) (fun r2 h2 => hlen r2 (by simp [h2]))]

theorem map_getD_zipWith_append_other {i : ℕ} :
    ∀ (rows : List (List Val)) (vs : List Val), vs.length = rows.length →
      (∀ r ∈ rows, i < r.length) →
      (List.zipWith (fun r v => r ++ [v]) rows vs).map (fun r => r.getD i Val.na)
        = rows.map (fun r => r.getD i Val.na) := by
  intro rows
  induction rows with
  | nil => intro vs _ _; rfl
  | cons r rest ih =>
    intro vs h hlt
    cases vs with
    | nil => simp at h
    | cons v vs' =>
      rw [List.zipWith_cons_cons, List.map_cons, List.map_cons]
      rw [List.getD_append _ _ _ _ (hlt r (by simp))]
      rw [ih vs' (by simpa using h) (fun r2 h2 => hlt r2 (by simp [h2]))]

/-! ## Column-level preservation under `setCol` -/

theorem setCol_rows_length (df : DF) (c : String) (vs : List Val)
    (h : vs.length = df.rows.length) :
    (setCol df c vs).rows.length = df.rows.length := by
  unfold setCol
  cases colIdx c df.cols <;> simp [List.length_zipWith, h]

theorem setCol_WF {df : DF} {c : String} {vs : List Val}
    (hwf : ∀ r ∈ df.rows, r.length = df.cols.length) :
    ∀ r ∈ (setCol df c vs).rows, r.length = (setCol df c vs).cols.length := by
  unfold setCol
  cases hc : colIdx c df.cols with
  | some i =>
    intro r hr
    simp only at hr ⊢
    obtain ⟨r0, hr0, v, _, rfl⟩ := mem_zipWith_struct hr
    rw [List.length_set]
    exact hwf r0 hr0
  | none =>
    intro r hr
    simp only at hr ⊢
    obtain ⟨r0, hr0, v, _, rfl⟩ := mem_zipWith_struct hr
    simp [hwf r0 hr0]

theorem setCol_getCol_self {df : DF} {c : String} {vs : List Val}
    (hwf : ∀ r ∈ df.rows, r.length = df.cols.length)
    (hlen : vs.length = df.rows.length) :
    getColVals (setCol df c vs) c = .ok vs := by
  unfold setCol getColVals
  cases hc : colIdx c df.cols with
  | some i =>
    simp only [hc]
    congr 1
    exact map_getD_zipWith_set i df.rows vs hlen
      (fun r hr => by rw [hwf r hr]; exact colIdx_lt_length hc)
  | none =>
    have hm : c ∉ df.cols := colIdx_eq_none_iff.mp hc
    simp only [colIdx_append_new hm]
    congr 1
    exact map_getD_zipWith_append df.rows vs hlen (fun r hr => hwf r hr)

theorem setCol_getCol_other {df : DF} {c c' : String} (hne : c ≠ c') {vs : List Val}
    (hwf : ∀ r ∈ df.rows, r.length = df.cols.length)
    (hlen : vs.length = df.rows.length) :
    getColVals (setCol df c' vs) c = getColVals df c := by
  unfold setCol getColVals
  cases hc' : colIdx c' df.cols with
  | some i' =>
    simp only
    cases hc : colIdx c df.cols with
    | none => rfl
    | some i =>
      simp only
      congr 1
      have hii : i' ≠ i := by
        intro he
        subst he
        have e1 : df.cols.getD i' "" = c := colIdx_getD hc
        have e2 : df.cols.getD i' "" = c' := colIdx_getD hc'
        exact hne (e1 ▸ e2 ▸ rfl)
      exact map_getD_zipWith_set_other hii df.rows vs hlen
  | none =>
    simp only [colIdx_append_ne hne]
    cases hc : colIdx c df.cols with
    | none => rfl
    | some i =>
      simp only
      congr 1
      exact map_getD_zipWith_append_other df.rows vs hlen
        (fun r hr => by rw [hwf r hr]; exact colIdx_lt_length hc)

/-! ## Preservation through the schema-completeness loop -/

theorem zerosFor_length (d : DF) : (zerosFor d).length = d.rows.length := by
  unfold zerosFor
  simp

theorem efStep_WF {d : DF} {c : String}
    (hwf : ∀ r ∈ d.rows, r.length = d.cols.length) :
    ∀ r ∈ (efStep d c).rows, r.length = (efStep d c).cols.length := by
  unfold efStep
  split
  · exact hwf
  · exact setCol_WF hwf

theorem efStep_rows_length (d : DF) (c : String) :
    (efStep d c).rows.length = d.rows.length := by
  unfold efStep
  split
  · rfl
  · exact setCol_rows_length d c _ (zerosFor_length d)

theorem efStep_mem_iff {d : DF} {c c' : String} :
    c ∈ (efStep d c').cols ↔ c ∈ d.cols ∨ c = c' := by
  unfold efStep
  split
  case isTrue hm =>
    constructor
    · exact fun h => Or.inl h
    · rintro (h | rfl)
      · exact h
      · exact hm
  case isFalse hm => exact setCol_mem_cols _

theorem efStep_getCol_mem {d : DF} {c c' : String}
    (hwf : ∀ r ∈ d.rows, r.length = d.cols.length) (h : c ∈ d.cols) :
    getColVals (efStep d c') c = getColVals d c := by
  unfold efStep
  split
  case isTrue => rfl
  case isFalse hm =>
    have hne : c ≠ c' := fun he => hm (he ▸ h)
    exact setCol_getCol_other hne hwf (zerosFor_length d)

theorem foldl_ef_WF : ∀ (l : List String) (d : DF),
    (∀ r ∈ d.rows, r.length = d.cols.length) →
    ∀ r ∈ (l.foldl efStep d).rows, r.length = (l.foldl efStep d).cols.length := by
  intro l
  induction l with
  | nil => intro d hwf; exact hwf
  | cons c' rest ih => intro d hwf; exact ih (efStep d c') (efStep_WF hwf)

theorem foldl_ef_rows_length : ∀ (l : List String) (d : DF),
    (l.foldl efStep d).rows.length = d.rows.length := by
  intro l
  induction l with
  | nil => intro d; rfl
  | cons c' rest ih =>
    intro d
    rw [List.foldl_cons, ih (efStep d c'), efStep_rows_length]

theorem foldl_ef_cols_iff : ∀ (l : List String) (d : DF) (c : String),
    c ∈ (l.foldl efStep d).cols ↔ c ∈ d.cols ∨ c ∈ l := by
  intro l
  induction l with
  | nil => intro d c; simp
  | cons c' rest ih =>
    intro d c
    rw [List.foldl_cons, ih (efStep d c'), efStep_mem_iff]
    constructor
    · rintro ((h | rfl) | h)
      · exact Or.inl h
      · exact Or.inr (by simp)
      · exact Or.inr (by simp [h])
    · rintro (h | h)
      · exact Or.inl (Or.inl h)
      · rcases List.mem_cons.mp h with rfl | h2
        · exact Or.inl (Or.inr rfl)
        · exact Or.inr h2

theorem foldl_ef_getCol : ∀ (l : List String) (d : DF) (c : String),
    (∀ r ∈ d.rows, r.length = d.cols.length) → c ∈ d.cols →
    getColVals (l.foldl efStep d) c = getColVals d c := by
  intro l
  induction l with
  | nil => intro d c _ _; rfl
  | cons c' rest ih =>
    intro d c hwf hm
    rw [List.foldl_cons, ih (efStep d c') c (efStep_WF hwf) (efStep_mono hm),
        efStep_getCol_mem hwf hm]

theorem foldl_ef_new : ∀ (l : List String) (d : DF) (c : String),
    (∀ r ∈ d.rows, r.length = d.cols.length) → c ∈ l → c ∉ d.cols →
    getColVals (l.foldl efStep d) c = .ok (List.replicate d.rows.length (Val.num 0)) := by
  intro l
  induction l with
  | nil => intro d c _ h _; simp at h
  | cons c' rest ih =>
    intro d c hwf hcl hcm
    rw [List.foldl_cons]
    by_cases hcc : c' = c
    · subst hcc
      have hstep : efStep d c' = setCol d c' (zerosFor d) := by
        unfold efStep
        rw [if_neg hcm]
      rw [hstep]
      rw [foldl_ef_getCol rest _ c' (setCol_WF hwf)
            ((setCol_mem_cols _).mpr (Or.inr rfl))]
      rw [setCol_getCol_self hwf (zerosFor_length d)]
      unfold zerosFor
      rw [List.map_const']
    · have hcl' : c ∈ rest := by
        rcases List.mem_cons.mp hcl with rfl | h2
        · exact absurd rfl hcc
        · exact h2
      have hcm' : c ∉ (efStep d c').cols := by
        rw [efStep_mem_iff]
        rintro (h | rfl)
        · exact hcm h
        · exact hcc rfl
      rw [ih (efStep d c') c (efStep_WF hwf) hcl' hcm', efStep_rows_length]

/-! ## Structure of the temporal-derivation phase -/

theorem addTemporal_cases {df d' : DF} (h : addTemporal df = .ok d') :
    ("createdAt" ∉ df.cols ∧ d' = df)
    ∨ ∃ vs conv, "createdAt" ∈ df.cols
        ∧ getColVals df "createdAt" = .ok vs
        ∧ mapExcept toDatetimeVal vs = .ok conv
        ∧ d' = setCol (setCol (setCol df "createdAt" conv) "hour" (conv.map hourOf))
            "day_of_week" (conv.map dayOfWeekOf) := by
  unfold addTemporal at h
  split at h
  case isTrue hmem =>
    right
    cases hg : getColVals df "createdAt" with
    | error e =>
      simp only [hg] at h
      exact Except.noConfusion h
    | ok vs =>
      cases hc : mapExcept toDatetimeVal vs with
      | error e =>
        simp only [hg, hc] at h
        exact Except.noConfusion h
      | ok conv =>
        simp only [hg, hc] at h
        injection h with h'
        exact ⟨vs, conv, hmem, rfl, hc, h'.symm⟩
  case isFalse hmem =>
    left
    injection h with h'
    exact ⟨hmem, h'.symm⟩

theorem getColVals_length {df : DF} {c : String} {vs : List Val}
    (h : getColVals df c = .ok vs) : vs.length = df.rows.length := by
  unfold getColVals at h
  cases hci : colIdx c df.cols with
  | none => rw [hci] at h; exact Except.noConfusion h
  | some i =>
    rw [hci] at h
    injection h with h'
    rw [← h']
    simp

theorem addTemporal_props {df d' : DF} (h : addTemporal df = .ok d')
    (hwf : ∀ r ∈ df.rows, r.length = df.cols.length) :
    (∀ r ∈ d'.rows, r.length = d'.cols.length)
    ∧ d'.rows.length = df.rows.length
    ∧ (∀ c, c ∈ d'.cols ↔ c ∈ df.cols
        ∨ ("createdAt" ∈ df.cols ∧ (c = "hour" ∨ c = "day_of_week"))) := by
  rcases addTemporal_cases h with ⟨hm, rfl⟩ | ⟨vs, conv, hmem, hg, hc, rfl⟩
  · exact ⟨hwf, rfl, fun c => by simp [hm]⟩
  · have hvs : vs.length = df.rows.length := getColVals_length hg
    have hcl : conv.length = vs.length := mapExcept_ok_length _ hc
    have wf1 : ∀ r ∈ (setCol df "createdAt" conv).rows,
        r.length = (setCol df "createdAt" conv).cols.length := setCol_WF hwf
    have len1 : (setCol df "createdAt" conv).rows.length = df.rows.length :=
      setCol_rows_length _ _ _ (by rw [hcl, hvs])
    have wf2 : ∀ r ∈ (setCol (setCol df "createdAt" conv) "hour" (conv.map hourOf)).rows,
        r.length = (setCol (setCol df "createdAt" conv) "hour" (conv.map hourOf)).cols.length :=
      setCol_WF wf1
    have len2 : (setCol (setCol df "createdAt" conv) "hour" (conv.map hourOf)).rows.length
        = df.rows.length := by
      rw [setCol_rows_length _ _ _ (by rw [List.length_map, hcl, hvs, len1]), len1]
    have wf3 : ∀ r ∈ (setCol (setCol (setCol df "createdAt" conv) "hour" (conv.map hourOf))
        "day_of_week" (conv.map dayOfWeekOf)).rows,
        r.length = (setCol (setCol (setCol df "createdAt" conv) "hour" (conv.map hourOf))
          "day_of_week" (conv.map dayOfWeekOf)).cols.length :=
      setCol_WF wf2
    have len3 : (setCol (setCol (setCol df "createdAt" conv) "hour" (conv.map hourOf))
        "day_of_week" (conv.map dayOfWeekOf)).rows.length = df.rows.length := by
      rw [setCol_rows_length _ _ _ (by rw [List.length_map, hcl, hvs, len2]), len2]
    refine ⟨wf3, len3, ?_⟩
    intro c
    rw [setCol_mem_cols, setCol_mem_cols, setCol_mem_cols]
    constructor
    · rintro (((h1 | rfl) | rfl) | rfl)
      · exact Or.inl h1
      · exact Or.inl hmem
      · exact Or.inr ⟨hmem, Or.inl rfl⟩
      · exact Or.inr ⟨hmem, Or.inr rfl⟩
    · rintro (h1 | ⟨_, rfl | rfl⟩)
      · exact Or.inl (Or.inl (Or.inl h1))
      · exact Or.inl (Or.inr rfl)
      · exact Or.inr rfl

/-! ## Column values through a projection -/

theorem select_shape {df X : DF} {names : List String} (h : select df names = .ok X) :
    (∀ c ∈ names, c ∈ df.cols)
    ∧ X = ⟨names, df.rows.map
        (fun r => names.map (fun c => r.getD ((colIdx c df.cols).getD 0) Val.na))⟩ := by
  unfold select at h
  split at h
  case isTrue hall =>
    refine ⟨?_, ?_⟩
    · intro c hc
      have hs := List.all_eq_true.mp hall c hc
      by_contra hn
      rw [colIdx_eq_none_iff.mpr hn] at hs
      simp at hs
    · injection h with h'
      exact h'.symm
  case isFalse => exact Except.noConfusion h

theorem select_getCol {df X : DF} {names : List String} (h : select df names = .ok X)
    {c : String} (hc : c ∈ names) : getColVals X c = getColVals df c := by
  obtain ⟨hall, rfl⟩ := select_shape h
  obtain ⟨j, hj⟩ := Option.isSome_iff_exists.mp (colIdx_isSome_of_mem hc)
  obtain ⟨i, hi⟩ := Option.isSome_iff_exists.mp (colIdx_isSome_of_mem (hall c hc))
  unfold getColVals
  simp only [hj, hi]
  congr 1
  rw [List.map_map]
  apply List.map_congr_left
  intro r _
  show (names.map (fun c' => r.getD ((colIdx c' df.cols).getD 0) Val.na)).getD j Val.na
      = r.getD i Val.na
  rw [getD_map_lt (fun c' => r.getD ((colIdx c' df.cols).getD 0) Val.na) Val.na "" names j
        (colIdx_lt_length hj)]
  simp only [colIdx_getD hj, hi]
  rfl

/-- C8 amended: in inference mode the feature build is total on any table
whose `createdAt` column (when present) converts cleanly: it succeeds, the
output carries exactly the feature columns, and every required feature
column still missing after the temporal derivation is inserted filled with
0.  (In training mode totality fails: `node_id` and `createdAt` are
required by the sort, as the counterexample shows; and a missing `hour` or
`day_of_week` is derived, not zero-filled, when `createdAt` is present.) -/
theorem c8_feature_totality
    (df : DF)
    (hwf : ∀ r ∈ df.rows, r.length = df.cols.length)
    (hconv : ∀ vs, getColVals df "createdAt" = .ok vs →
      ∃ conv, mapExcept toDatetimeVal vs = .ok conv) :
    ∃ d' X, addTemporal df = .ok d'
      ∧ preprocess_data df false = .ok (.inference X)
      ∧ X.cols = features
      ∧ ∀ c ∈ features, c ∉ d'.cols →
          getColVals X c = .ok (List.replicate df.rows.length (Val.num 0)) := by
  have had : ∃ d', addTemporal df = .ok d' := by
    unfold addTemporal
    split
    case isTrue hmem =>
      obtain ⟨i, hi, hg⟩ := getColVals_ok_of_mem df "createdAt" hmem
      obtain ⟨conv, hcv⟩ := hconv _ hg
      simp only [hg, hcv]
      exact ⟨_, rfl⟩
    case isFalse => exact ⟨df, rfl⟩
  obtain ⟨d', hd⟩ := had
  obtain ⟨hwf', hlen', _⟩ := addTemporal_props hd hwf
  have hsel := select_ok_of_mem (ensureFeatures d') features (ensureFeatures_mem d')
  refine ⟨d', _, hd, ?_, select_ok_cols hsel, ?_⟩
  · unfold preprocess_data callerFrame
    simp only [hd]
    rw [if_neg Bool.false_ne_true]
    unfold preprocessInfer
    simp only [hsel]
  · intro c hc hcm
    rw [select_getCol hsel hc]
    show getColVals (ensureFeatures d') c = _
    unfold ensureFeatures
    rw [foldl_ef_new features d' c hwf' hc hcm, hlen']


/-- C8 witness: a one-column table; all seven features are zero-filled. -/
theorem c8_feature_totality_witness :
    ∃ d' X, addTemporal dfW8 = .ok d'
      ∧ preprocess_data dfW8 false = .ok (.inference X)
      ∧ X.cols = features
      ∧ ∀ c ∈ features, c ∉ d'.cols →
          getColVals X c = .ok (List.replicate dfW8.rows.length (Val.num 0)) :=
  c8_feature_totality dfW8 (by decide) (fun vs h => Except.noConfusion h)

/-- C10 amended: `preprocess_data` mutates its argument in place exactly up
to the schema phase: afterwards the caller's table contains every feature
column, carries the converted `createdAt` column and the derived `hour` and
`day_of_week` columns when a convertible `createdAt` was present, and never
gains `humidity_future` (the sorted copy keeps it); the observed table
differs from the one passed in whenever some required feature was missing,
but a table already in processed form is observed unchanged. -/
theorem c10_frame_mutation
    (df df1 : DF)
    (hwf : ∀ r ∈ df.rows, r.length = df.cols.length)
    (h : callerFrame df = .ok df1) :
    (∀ c ∈ features, c ∈ df1.cols)
    ∧ ("humidity_future" ∉ df.cols → "humidity_future" ∉ df1.cols)
    ∧ ((∃ c ∈ features, c ∉ df.cols) → df1 ≠ df)
    ∧ (∀ vs conv, getColVals df "createdAt" = .ok vs →
        mapExcept toDatetimeVal vs = .ok conv →
        getColVals df1 "createdAt" = .ok conv
        ∧ getColVals df1 "hour" = .ok (conv.map hourOf)
        ∧ getColVals df1 "day_of_week" = .ok (conv.map dayOfWeekOf)) := by
  have hd : ∃ d', addTemporal df = .ok d' ∧ df1 = ensureFeatures d' := by
    unfold callerFrame at h
    cases ha : addTemporal df with
    | error e =>
      simp only [ha] at h
      exact Except.noConfusion h
    | ok d =>
      simp only [ha] at h
      injection h with h'
      exact ⟨d, rfl, h'.symm⟩
  obtain ⟨d', ha, hdf1⟩ := hd
  obtain ⟨hwf', hlen', hcolsA⟩ := addTemporal_props ha hwf
  subst hdf1
  refine ⟨callerFrame_features h, ?_, ?_, ?_⟩
  · intro hnm hmem
    unfold ensureFeatures at hmem
    rw [foldl_ef_cols_iff] at hmem
    rcases hmem with hm | hm
    · rw [hcolsA _] at hm
      rcases hm with hm | ⟨_, hm | hm⟩
      · exact hnm hm
      · exact absurd hm (by decide)
      · exact absurd hm (by decide)
    · exact absurd hm (by decide)
  · rintro ⟨c, hcf, hcm⟩ heq
    have hcc : c ∈ (ensureFeatures d').cols := callerFrame_features h c hcf
    rw [heq] at hcc
    exact hcm hcc
  · intro vs conv hg hc
    have hmem : "createdAt" ∈ df.cols := by
      by_contra hn
      unfold getColVals at hg
      rw [colIdx_eq_none_iff.mpr hn] at hg
      exact Except.noConfusion hg
    rcases addTemporal_cases ha with ⟨hn, _⟩ | ⟨vs2, conv2, _, hg2, hc2, hde⟩
    · exact absurd hmem hn
    · rw [hg] at hg2
      injection hg2 with hv
      subst hv
      rw [hc] at hc2
      injection hc2 with hcv
      subst hcv
      subst hde
      have hvs : vs.length = df.rows.length := getColVals_length hg
      have hcl : conv.length = vs.length := mapExcept_ok_length _ hc
      have wf1 : ∀ r ∈ (setCol df "createdAt" conv).rows,
          r.length = (setCol df "createdAt" conv).cols.length := setCol_WF hwf
      have len1 : (setCol df "createdAt" conv).rows.length = df.rows.length :=
        setCol_rows_length _ _ _ (by rw [hcl, hvs])
      have wf2 : ∀ r ∈ (setCol (setCol df "createdAt" conv) "hour" (conv.map hourOf)).rows,
          r.length
            = (setCol (setCol df "createdAt" conv) "hour" (conv.map hourOf)).cols.length :=
        setCol_WF wf1
      have len2 : (setCol (setCol df "createdAt" conv) "hour" (conv.map hourOf)).rows.length
          = df.rows.length := by
        rw [setCol_rows_length _ _ _ (by rw [List.length_map, hcl, hvs, len1]), len1]
      refine ⟨?_, ?_, ?_⟩
      · show getColVals (ensureFeatures _) "createdAt" = _
        unfold ensureFeatures
        rw [foldl_ef_getCol features _ _ (setCol_WF wf2)
              ((hcolsA "createdAt").mpr (Or.inl hmem))]
        rw [setCol_getCol_other (by decide) wf2 (by rw [List.length_map, hcl, hvs, len2])]
        rw [setCol_getCol_other (by decide) wf1 (by rw [List.length_map, hcl, hvs, len1])]
        exact setCol_getCol_self hwf (by rw [hcl, hvs])
      · show getColVals (ensureFeatures _) "hour" = _
        unfold ensureFeatures
        rw [foldl_ef_getCol features _ _ (setCol_WF wf2)
              ((hcolsA "hour").mpr (Or.inr ⟨hmem, Or.inl rfl⟩))]
        rw [setCol_getCol_other (by decide) wf2 (by rw [List.length_map, hcl, hvs, len2])]
        exact setCol_getCol_self wf1 (by rw [List.length_map, hcl, hvs, len1])
      · show getColVals (ensureFeatures _) "day_of_week" = _
        unfold ensureFeatures
        rw [foldl_ef_getCol features _ _ (setCol_WF wf2)
              ((hcolsA "day_of_week").mpr (Or.inr ⟨hmem, Or.inr rfl⟩))]
        exact setCol_getCol_self wf2 (by rw [List.length_map, hcl, hvs, len2])

/-- C10 witness: the two-reading table `dfW`, whose caller-visible frame
after the call is `dfW_frame`. -/
theorem c10_frame_mutation_witness :
    (∀ c ∈ features, c ∈ dfW_frame.cols)
    ∧ ("humidity_future" ∉ dfW.cols → "humidity_future" ∉ dfW_frame.cols)
    ∧ ((∃ c ∈ features, c ∉ dfW.cols) → dfW_frame ≠ dfW)
    ∧ (∀ vs conv, getColVals dfW "createdAt" = .ok vs →
        mapExcept toDatetimeVal vs = .ok conv →
        getColVals dfW_frame "createdAt" = .ok conv
        ∧ getColVals dfW_frame "hour" = .ok (conv.map hourOf)
        ∧ getColVals dfW_frame "day_of_week" = .ok (conv.map dayOfWeekOf)) :=
  c10_frame_mutation dfW dfW_frame (by decide) (by decide)
